import Mathlib

/-!
Verification of the circular buffer implemented in src/c/buffer/buffer.c.

The embedding models the buffer state as a record over Nat byte offsets:
the C code manipulates the head and tail cursors as raw pointers into the
allocated block, which we render as byte offsets from the start of the
data region.  Pointer arithmetic on a C void pointer steps one byte at a
time, so all cursor arithmetic below is byte-granular, exactly as in the
source.  Caller memory passed to pushToBuffer and popFromBuffer is
modelled as a list of bytes indexed from the pointer the caller passes.
-/

/-- State of a buffer_t (buffer.h lines 83-97).  data is the allocated
byte region, head and tail are byte offsets into it, depth is
numberOfElements + 1, width is the element size in bytes, and the two
behavior bits are rendered as Booleans. -/
structure Buffer where
  data : List Nat
  head : Nat
  tail : Nat
  depth : Nat
  width : Nat
  stack : Bool
  overwrite : Bool
deriving Repr, DecidableEq

/-- newBuffer (buffer.c lines 76-108): calloc of (numberOfElements+1) *
elementSizeInBytes zero bytes, head = tail = start of data, depth =
numberOfElements + 1. -/
def newBuffer (numberOfElements elementSizeInBytes : Nat) (stack overwrite : Bool) : Buffer :=
  { data := List.replicate ((numberOfElements + 1) * elementSizeInBytes) 0
    head := 0
    tail := 0
    depth := numberOfElements + 1
    width := elementSizeInBytes
    stack := stack
    overwrite := overwrite }

/-- newBuffer including its two allocation-failure paths (buffer.c lines
79-99): if the wrapper malloc or the data calloc fails, the function
frees what it allocated and returns NULL, never a partial object.  The
success of each allocation is a parameter of the model. -/
def newBufferChecked (wrapperAllocOk dataAllocOk : Bool)
    (numberOfElements elementSizeInBytes : Nat) (stack overwrite : Bool) : Option Buffer :=
  if wrapperAllocOk = false then none
  else if dataAllocOk = false then none
  else some (newBuffer numberOfElements elementSizeInBytes stack overwrite)

/-- isBufferEmpty (buffer.c lines 128-130). -/
def isBufferEmpty (b : Buffer) : Bool :=
  b.head == b.tail

/-- isBufferFull (buffer.c lines 133-135): tail == head + 1 (one byte past
head), or tail at the start of data and head at or past offset
(depth - 1) * width. -/
def isBufferFull (b : Buffer) : Bool :=
  (b.tail == b.head + 1) || ((b.tail == 0) && ((b.depth - 1) * b.width ≤ b.head))

/-- increment (buffer.c lines 138-149): advance a cursor by ONE BYTE
(void pointer arithmetic), wrapping from offset (depth - 1) * width to 0. -/
def increment (b : Buffer) (ht : Nat) : Nat :=
  if ht < (b.depth - 1) * b.width then ht + 1 else 0

/-- decrement (buffer.c lines 152-163): retreat a cursor by one byte,
wrapping from offset 0 to offset (depth - 1) * width. -/
def decrement (b : Buffer) (ht : Nat) : Nat :=
  if 0 < ht then ht - 1 else (b.depth - 1) * b.width

/-- popByte (buffer.c lines 166-184): stack mode decrements head then
reads at the new head; queue mode reads at tail then increments tail. -/
def popByte (b : Buffer) : Buffer × Nat :=
  if b.stack then
    let h := decrement b b.head
    ({ b with head := h }, b.data.getD h 0)
  else
    ({ b with tail := increment b b.tail }, b.data.getD b.tail 0)

/-- pushByte (buffer.c lines 225-236): if full and the overwrite bit is
set, first increment tail (evicting the oldest byte); then write at head
and increment head. -/
def pushByte (b : Buffer) (d : Nat) : Buffer :=
  let b1 := if isBufferFull b && b.overwrite then { b with tail := increment b b.tail } else b
  { b1 with data := b1.data.set b1.head d, head := increment b1 b1.head }

/-- The push-back loop of popFromBuffer (buffer.c lines 209-213): for
failedbytes = byteIndex down to 1, pushByte the destination byte at
offset elementIndex * width + failedbytes. -/
def pushBackFailed : Buffer → List Nat → Nat → Nat → Buffer
  | b, _, _, 0 => b
  | b, d, ei, failedbytes + 1 =>
      pushBackFailed (pushByte b (d.getD (ei * b.width + (failedbytes + 1)) 0)) d ei failedbytes

/-- Inner byte loop of popFromBuffer (buffer.c lines 191-219) for one
element.  The last argument counts the remaining bytes, so the current
byteIndex is width - remaining.  Returns the updated buffer and
destination, plus none on normal completion of the element or some
byteIndex when the buffer was found empty (early return in C). -/
def popElement : Buffer → List Nat → Nat → Nat → Buffer × List Nat × Option Nat
  | b, d, _, 0 => (b, d, none)
  | b, d, ei, n + 1 =>
      let bi := b.width - (n + 1)
      if !(isBufferEmpty b) then
        if b.stack then
          let r := popByte b
          popElement r.1 (d.set ((ei + 1) * b.width - 1 - bi) r.2) ei n
        else
          let r := popByte b
          popElement r.1 (d.set (ei * b.width + bi) r.2) ei n
      else
        (pushBackFailed b d ei bi, d, some bi)

/-- Result of the element loop of popFromBuffer.  The ghost field records
the (elementIndex, byteIndex) at which the early return fired, if any;
the C code returns only the failed count. -/
structure PopResult where
  buf : Buffer
  dest : List Nat
  failed : Nat
  ghost : Option (Nat × Nat)
deriving Repr, DecidableEq

/-- Outer element loop of popFromBuffer (buffer.c lines 190-221); ei is
the current elementIndex, the last argument the number of remaining
elements, l the requested count (used by the early return l - ei). -/
def popFromBufferAux : Buffer → List Nat → Nat → Nat → Nat → PopResult
  | b, d, _, _, 0 => ⟨b, d, 0, none⟩
  | b, d, l, ei, el + 1 =>
      let r := popElement b d ei b.width
      match r.2.2 with
      | none => popFromBufferAux r.1 r.2.1 l (ei + 1) el
      | some bi => ⟨r.1, r.2.1, l - ei, some (ei, bi)⟩

/-- popFromBuffer (buffer.c lines 187-222): pop l elements into caller
memory d; returns the final buffer, the final destination memory and the
count of elements not delivered. -/
def popFromBuffer (b : Buffer) (d : List Nat) (l : Nat) : Buffer × List Nat × Nat :=
  let r := popFromBufferAux b d l 0 l
  (r.buf, r.dest, r.failed)

/-- The head-rollback loop of pushToBuffer (buffer.c lines 258-263):
decrement head once per already-pushed byte of the failed element. -/
def rollbackHead : Buffer → Nat → Buffer
  | b, 0 => b
  | b, failedbytes + 1 => rollbackHead { b with head := decrement b b.head } failedbytes

/-- Inner byte loop of pushToBuffer (buffer.c lines 246-269) for one
element; the last argument counts remaining bytes, byteIndex is
width - remaining.  Returns none on completion or some byteIndex on the
early return (buffer full and overwrite not allowed). -/
def pushElement : Buffer → List Nat → Nat → Nat → Buffer × Option Nat
  | b, _, _, 0 => (b, none)
  | b, d, ei, n + 1 =>
      let bi := b.width - (n + 1)
      if (!isBufferFull b) || b.overwrite then
        pushElement (pushByte b (d.getD (ei * b.width + bi) 0)) d ei n
      else
        (rollbackHead b bi, some bi)

/-- Result of the element loop of pushToBuffer, with the same ghost
instrumentation as PopResult. -/
structure PushResult where
  buf : Buffer
  failed : Nat
  ghost : Option (Nat × Nat)
deriving Repr, DecidableEq

/-- Outer element loop of pushToBuffer (buffer.c lines 243-271). -/
def pushToBufferAux : Buffer → List Nat → Nat → Nat → Nat → PushResult
  | b, _, _, _, 0 => ⟨b, 0, none⟩
  | b, d, l, ei, el + 1 =>
      let r := pushElement b d ei b.width
      match r.2 with
      | none => pushToBufferAux r.1 d l (ei + 1) el
      | some bi => ⟨r.1, l - ei, some (ei, bi)⟩

/-- pushToBuffer (buffer.c lines 239-272): push l elements from caller
memory d; returns the final buffer and the count of elements not
transferred. -/
def pushToBuffer (b : Buffer) (d : List Nat) (l : Nat) : Buffer × Nat :=
  let r := pushToBufferAux b d l 0 l
  (r.buf, r.failed)

/-- Number of distinct byte positions the cursors range over: offsets 0
through (depth - 1) * width inclusive. -/
def ringSize (b : Buffer) : Nat := (b.depth - 1) * b.width + 1

/-- Number of occupied bytes: the distance from tail forward to head
around the ring. -/
def occupancy (b : Buffer) : Nat :=
  if b.tail ≤ b.head then b.head - b.tail else b.head + ringSize b - b.tail

/-- The i-th occupied byte position, counting forward from tail. -/
def posAt (b : Buffer) (i : Nat) : Nat :=
  if b.tail + i < ringSize b then b.tail + i else b.tail + i - ringSize b

/-- The occupied bytes of the buffer in ring order from tail to head. -/
def absBuf (b : Buffer) : List Nat :=
  (List.range (occupancy b)).map (fun i => b.data.getD (posAt b i) 0)

/-- Well-formedness: cursors inside the ring, data at least as large as
the ring (newBuffer allocates depth * width bytes). -/
structure WFB (b : Buffer) : Prop where
  hw : 0 < b.width
  hd : 0 < b.depth
  hhead : b.head ≤ (b.depth - 1) * b.width
  htail : b.tail ≤ (b.depth - 1) * b.width
  hlen : b.data.length = b.depth * b.width

/-- A public-interface operation: one bulk push or one bulk pop call. -/
inductive BufOp where
  | push (src : List Nat) (l : Nat)
  | pop (dst : List Nat) (l : Nat)

/-- Apply one public operation to the buffer. -/
def applyOp (b : Buffer) : BufOp → Buffer
  | .push src l => (pushToBuffer b src l).1
  | .pop dst l => (popFromBuffer b dst l).1

/-- Apply a sequence of public operations. -/
def applyOps (b : Buffer) : List BufOp → Buffer
  | [] => b
  | op :: ops => applyOps (applyOp b op) ops

/-- Write a list of bytes to consecutive indices of d starting at i. -/
def setSeq : List Nat → Nat → List Nat → List Nat
  | d, _, [] => d
  | d, i, x :: xs => setSeq (d.set i x) (i + 1) xs

/-- Concatenation of a list of byte blocks. -/
def flatBytes : List (List Nat) → List Nat
  | [] => []
  | e :: es => e ++ flatBytes es

/-- A sequence of single-element pushToBuffer calls, one per element, in
order; the second component is the sum of the returned failed counts. -/
def pushSeq : Buffer → List (List Nat) → Buffer × Nat
  | b, [] => (b, 0)
  | b, e :: es =>
      let r := pushToBuffer b e 1
      let r2 := pushSeq r.1 es
      (r2.1, r.2 + r2.2)

/-- Modelled from claim C1's wording (spec section 4.1): full iff the
slot one past head, at slot granularity of one elementWidth-sized unit
with wraparound over the capacity + 1 slots, equals tail, or tail is at
the start of storage and head is at the last slot. -/
def isFullSlotSpec (b : Buffer) : Bool :=
  (b.tail == (if b.head + b.width ≤ (b.depth - 1) * b.width then b.head + b.width else 0))
  || ((b.tail == 0) && (b.head == (b.depth - 1) * b.width))

/-! ### List helpers -/

theorem getD_set_self : ∀ (l : List Nat) (i x : Nat), i < l.length → (l.set i x).getD i 0 = x
  | _ :: _, 0, _, _ => rfl
  | _ :: l, i + 1, x, h => getD_set_self l i x (by simpa using h)

theorem getD_set_ne : ∀ (l : List Nat) (i j x : Nat), i ≠ j → (l.set i x).getD j 0 = l.getD j 0
  | [], _, _, _, _ => rfl
  | _ :: _, 0, 0, _, h => absurd rfl h
  | _ :: _, 0, _ + 1, _, _ => rfl
  | _ :: _, _ + 1, 0, _, _ => rfl
  | _ :: l, i + 1, j + 1, x, h => getD_set_ne l i j x (fun hh => h (by omega))

theorem getD_map_range (f : Nat → Nat) (n i : Nat) (h : i < n) :
    ((List.range n).map f).getD i 0 = f i := by
  rw [List.getD_eq_getElem _ _ (by simpa using h)]
  simp

theorem map_range_getD (e : List Nat) :
    (List.range e.length).map (fun j => e.getD j 0) = e := by
  apply List.ext_getElem (by simp)
  intro i h1 h2
  simp only [List.getElem_map, List.getElem_range]
  exact List.getD_eq_getElem _ _ h2

theorem setSeq_append (d : List Nat) (i : Nat) (xs ys : List Nat) :
    setSeq d i (xs ++ ys) = setSeq (setSeq d i xs) (i + xs.length) ys := by
  induction xs generalizing d i with
  | nil => simp [setSeq]
  | cons x xs ih =>
      rw [List.cons_append, setSeq, setSeq, ih]
      have : i + 1 + xs.length = i + (x :: xs).length := by simp; omega
      rw [this]

theorem setSeq_set_comm (d : List Nat) (i j x : Nat) (xs : List Nat)
    (h : i + xs.length ≤ j) :
    setSeq (d.set j x) i xs = (setSeq d i xs).set j x := by
  induction xs generalizing d i with
  | nil => simp [setSeq]
  | cons y ys ih =>
      simp only [setSeq]
      rw [List.set_comm _ _ _ (show j ≠ i by simp at h; omega),
        ih _ _ (by simp at h; omega)]

theorem setSeq_eq_of_le (xs : List Nat) : ∀ (d : List Nat) (i : Nat),
    i + xs.length ≤ d.length →
    setSeq d i xs = d.take i ++ xs ++ d.drop (i + xs.length) := by
  induction xs with
  | nil => intro d i h; simp [setSeq]
  | cons x xs ih =>
      intro d i h
      have hi : i < d.length := by simp at h; omega
      rw [setSeq, ih _ _ (by simp at h ⊢; omega)]
      rw [List.set_eq_take_cons_drop x hi]
      rw [List.take_append_eq_append_take, List.take_take,
        List.drop_append_eq_append_drop]
      have h1 : min (i + 1) i = i := by omega
      have h2 : (d.take i).length = i := by simp; omega
      rw [h1, h2]
      have h3 : i + 1 - i = 1 := by omega
      have h4 : i + 1 + xs.length - i = 1 + xs.length := by omega
      rw [h3, h4]
      have h5 : (d.take i).drop (i + 1 + xs.length) = [] := by
        apply List.drop_eq_nil_of_le; simp; omega
      rw [h5]
      simp only [List.nil_append, List.take_one, List.append_assoc, List.length_cons,
        List.head?_cons, Option.toList_some]
      have h6 : 1 + xs.length = xs.length + 1 := by omega
      rw [h6, List.drop_succ_cons, List.drop_drop]
      have h7 : i + 1 + xs.length = i + (xs.length + 1) := by omega
      rw [h7]
      simp

theorem setSeq_self (d xs : List Nat) (h : d.length = xs.length) :
    setSeq d 0 xs = xs := by
  rw [setSeq_eq_of_le _ _ _ (by omega)]
  simp [List.drop_eq_nil_of_le, h.le]

theorem flatBytes_append (xs ys : List (List Nat)) :
    flatBytes (xs ++ ys) = flatBytes xs ++ flatBytes ys := by
  induction xs with
  | nil => simp [flatBytes]
  | cons x xs ih => simp [flatBytes, ih]

theorem widths_of_map_eq (es : List (List Nat)) (w : Nat)
    (h : es.map List.length = List.replicate es.length w) :
    ∀ e ∈ es, e.length = w := by
  intro e he
  have : e.length ∈ es.map List.length := List.mem_map_of_mem _ he
  rw [h] at this
  exact List.eq_of_mem_replicate this

theorem length_flatBytes (es : List (List Nat)) (w : Nat)
    (h : ∀ e ∈ es, e.length = w) : (flatBytes es).length = es.length * w := by
  induction es with
  | nil => simp [flatBytes]
  | cons e es ih =>
      have he : e.length = w := h e (by simp)
      have : ∀ x ∈ es, x.length = w := fun x hx => h x (by simp [hx])
      have hm : (es.length + 1) * w = es.length * w + w := Nat.succ_mul _ _
      simp [flatBytes, he, ih this, hm]
      omega

/-! ### Ring arithmetic: emptiness, fullness, occupancy, positions -/

theorem occ_le (b : Buffer) (hh : b.head ≤ (b.depth - 1) * b.width)
    (ht : b.tail ≤ (b.depth - 1) * b.width) :
    occupancy b ≤ (b.depth - 1) * b.width := by
  simp only [occupancy, ringSize]
  split_ifs <;> omega

theorem empty_iff_occ (b : Buffer) (ht : b.tail ≤ (b.depth - 1) * b.width) :
    isBufferEmpty b = true ↔ occupancy b = 0 := by
  simp only [isBufferEmpty, beq_iff_eq, occupancy, ringSize]
  split_ifs <;> omega

theorem notEmpty_iff_occ (b : Buffer) (ht : b.tail ≤ (b.depth - 1) * b.width) :
    isBufferEmpty b = false ↔ 0 < occupancy b := by
  have h := empty_iff_occ b ht
  cases hb : isBufferEmpty b <;> simp [hb] at h ⊢ <;> omega

theorem full_iff_occ (b : Buffer) (hh : b.head ≤ (b.depth - 1) * b.width)
    (ht : b.tail ≤ (b.depth - 1) * b.width) :
    isBufferFull b = true ↔ occupancy b = (b.depth - 1) * b.width := by
  simp only [isBufferFull, Bool.or_eq_true, Bool.and_eq_true, beq_iff_eq,
    decide_eq_true_eq, occupancy, ringSize]
  split_ifs <;> omega

theorem notFull_iff_occ (b : Buffer) (hh : b.head ≤ (b.depth - 1) * b.width)
    (ht : b.tail ≤ (b.depth - 1) * b.width) :
    isBufferFull b = false ↔ occupancy b < (b.depth - 1) * b.width := by
  have h := full_iff_occ b hh ht
  have h2 := occ_le b hh ht
  cases hb : isBufferFull b <;> simp [hb] at h ⊢ <;> omega

theorem increment_le (b : Buffer) (p : Nat) : increment b p ≤ (b.depth - 1) * b.width := by
  simp only [increment]
  split_ifs <;> omega

theorem decrement_le (b : Buffer) (p : Nat) (hp : p ≤ (b.depth - 1) * b.width) :
    decrement b p ≤ (b.depth - 1) * b.width := by
  simp only [decrement]
  split_ifs <;> omega

theorem posAt_le (b : Buffer) (i : Nat) (ht : b.tail ≤ (b.depth - 1) * b.width)
    (hi : i ≤ (b.depth - 1) * b.width) :
    posAt b i ≤ (b.depth - 1) * b.width := by
  simp only [posAt, ringSize]
  split_ifs <;> omega

theorem posAt_inj (b : Buffer) (i j : Nat) (ht : b.tail ≤ (b.depth - 1) * b.width)
    (hi : i ≤ (b.depth - 1) * b.width) (hj : j ≤ (b.depth - 1) * b.width)
    (h : posAt b i = posAt b j) : i = j := by
  simp only [posAt, ringSize] at h
  split_ifs at h <;> omega

theorem posAt_occ (b : Buffer) (hh : b.head ≤ (b.depth - 1) * b.width)
    (ht : b.tail ≤ (b.depth - 1) * b.width) :
    posAt b (occupancy b) = b.head := by
  simp only [posAt, occupancy, ringSize]
  split_ifs <;> omega

theorem posAt_zero (b : Buffer) (ht : b.tail ≤ (b.depth - 1) * b.width) :
    posAt b 0 = b.tail := by
  simp only [posAt, ringSize]
  split_ifs <;> omega

theorem posAt_occ_pred (b : Buffer) (hh : b.head ≤ (b.depth - 1) * b.width)
    (ht : b.tail ≤ (b.depth - 1) * b.width) (hpos : 0 < occupancy b) :
    posAt b (occupancy b - 1) = decrement b b.head := by
  simp only [posAt, occupancy, decrement, ringSize] at hpos ⊢
  split_ifs at hpos ⊢ <;> omega

theorem posAt_tail_inc (b : Buffer) (i : Nat) (ht : b.tail ≤ (b.depth - 1) * b.width)
    (hi : i ≤ (b.depth - 1) * b.width) :
    posAt { b with tail := increment b b.tail } i = posAt b (i + 1) := by
  simp only [posAt, increment, ringSize]
  split_ifs <;> omega

theorem occ_head_inc (b : Buffer) (hh : b.head ≤ (b.depth - 1) * b.width)
    (ht : b.tail ≤ (b.depth - 1) * b.width)
    (hlt : occupancy b < (b.depth - 1) * b.width) :
    occupancy { b with head := increment b b.head } = occupancy b + 1 := by
  simp only [occupancy, increment, ringSize] at hlt ⊢
  split_ifs at hlt ⊢ <;> omega

theorem occ_tail_inc (b : Buffer) (hh : b.head ≤ (b.depth - 1) * b.width)
    (ht : b.tail ≤ (b.depth - 1) * b.width) (hpos : 0 < occupancy b) :
    occupancy { b with tail := increment b b.tail } = occupancy b - 1 := by
  simp only [occupancy, increment, ringSize] at hpos ⊢
  split_ifs at hpos ⊢ <;> omega

theorem occ_head_dec (b : Buffer) (hh : b.head ≤ (b.depth - 1) * b.width)
    (ht : b.tail ≤ (b.depth - 1) * b.width) (hpos : 0 < occupancy b) :
    occupancy { b with head := decrement b b.head } = occupancy b - 1 := by
  simp only [occupancy, decrement, ringSize] at hpos ⊢
  split_ifs at hpos ⊢ <;> omega

/-! ### Shape preservation -/

/-- The configuration fields and the data length never change after
construction; only data contents and the two cursors move. -/
def ShapeEq (b c : Buffer) : Prop :=
  c.depth = b.depth ∧ c.width = b.width ∧ c.stack = b.stack ∧ c.overwrite = b.overwrite ∧
  c.data.length = b.data.length

theorem shapeEq_refl (b : Buffer) : ShapeEq b b := ⟨rfl, rfl, rfl, rfl, rfl⟩

theorem shapeEq_trans {a b c : Buffer} (h1 : ShapeEq a b) (h2 : ShapeEq b c) : ShapeEq a c := by
  obtain ⟨x1, x2, x3, x4, x5⟩ := h1
  obtain ⟨y1, y2, y3, y4, y5⟩ := h2
  exact ⟨y1.trans x1, y2.trans x2, y3.trans x3, y4.trans x4, y5.trans x5⟩

theorem wfb_of_shape {b c : Buffer} (hb : WFB b) (hs : ShapeEq b c)
    (hh : c.head ≤ (c.depth - 1) * c.width) (ht : c.tail ≤ (c.depth - 1) * c.width) :
    WFB c := by
  obtain ⟨hd, hw, _, _, hl⟩ := hs
  refine ⟨?_, ?_, hh, ht, ?_⟩
  · rw [hw]; exact hb.hw
  · rw [hd]; exact hb.hd
  · rw [hl, hb.hlen, hd, hw]

theorem shape_pushByte (b : Buffer) (x : Nat) : ShapeEq b (pushByte b x) := by
  simp only [pushByte]
  split_ifs <;> exact ⟨rfl, rfl, rfl, rfl, by simp⟩

theorem shape_popByte (b : Buffer) : ShapeEq b (popByte b).1 := by
  simp only [popByte]
  split_ifs <;> exact ⟨rfl, rfl, rfl, rfl, rfl⟩

/-! ### Byte-step lemmas at the abstraction level -/

theorem ring_le_len (b : Buffer) (hWF : WFB b) :
    (b.depth - 1) * b.width + 1 ≤ b.data.length := by
  have h1 : (b.depth - 1 + 1) * b.width = (b.depth - 1) * b.width + b.width :=
    Nat.succ_mul _ _
  have h2 : b.depth - 1 + 1 = b.depth := Nat.succ_pred_eq_of_pos hWF.hd
  rw [h2] at h1
  have h3 := hWF.hlen
  have h4 := hWF.hw
  omega

theorem wfb_pushByte (b : Buffer) (x : Nat) (hWF : WFB b) : WFB (pushByte b x) := by
  refine wfb_of_shape hWF (shape_pushByte b x) ?_ ?_
  · simp only [pushByte]
    split_ifs <;> exact increment_le _ _
  · simp only [pushByte]
    split_ifs
    · exact increment_le _ _
    · exact hWF.htail

theorem wfb_popByte (b : Buffer) (hWF : WFB b) : WFB (popByte b).1 := by
  refine wfb_of_shape hWF (shape_popByte b) ?_ ?_
  · simp only [popByte]
    split_ifs
    · exact decrement_le _ _ hWF.hhead
    · exact hWF.hhead
  · simp only [popByte]
    split_ifs
    · exact hWF.htail
    · exact increment_le _ _

theorem shape_rollbackHead : ∀ (n : Nat) (b : Buffer), ShapeEq b (rollbackHead b n)
  | 0, b => shapeEq_refl b
  | n + 1, b =>
      shapeEq_trans (⟨rfl, rfl, rfl, rfl, rfl⟩ :
        ShapeEq b { b with head := decrement b b.head }) (shape_rollbackHead n _)

theorem wfb_rollbackHead : ∀ (n : Nat) (b : Buffer), WFB b → WFB (rollbackHead b n)
  | 0, _, h => h
  | n + 1, b, h =>
      wfb_rollbackHead n _
        (wfb_of_shape h ⟨rfl, rfl, rfl, rfl, rfl⟩ (decrement_le _ _ h.hhead) h.htail)

theorem shape_pushBackFailed : ∀ (n : Nat) (b : Buffer) (d : List Nat) (ei : Nat),
    ShapeEq b (pushBackFailed b d ei n)
  | 0, _, _, _ => shapeEq_refl _
  | n + 1, b, d, ei =>
      shapeEq_trans (shape_pushByte b _) (shape_pushBackFailed n _ d ei)

theorem wfb_pushBackFailed : ∀ (n : Nat) (b : Buffer) (d : List Nat) (ei : Nat),
    WFB b → WFB (pushBackFailed b d ei n)
  | 0, _, _, _, h => h
  | n + 1, b, d, ei, h => wfb_pushBackFailed n _ d ei (wfb_pushByte b _ h)

theorem pushByte_notFull (b : Buffer) (x : Nat) (hWF : WFB b) (hnf : isBufferFull b = false) :
    (pushByte b x).head = increment b b.head ∧ (pushByte b x).tail = b.tail ∧
    occupancy (pushByte b x) = occupancy b + 1 ∧
    absBuf (pushByte b x) = absBuf b ++ [x] := by
  have hh := hWF.hhead
  have ht := hWF.htail
  have hlt : occupancy b < (b.depth - 1) * b.width := (notFull_iff_occ b hh ht).mp hnf
  have e1 : pushByte b x = { b with data := b.data.set b.head x, head := increment b b.head } := by
    simp [pushByte, hnf]
  have hocc2 : occupancy (pushByte b x) = occupancy b + 1 := by
    rw [e1]
    exact occ_head_inc { b with data := b.data.set b.head x } hh ht hlt
  refine ⟨by rw [e1], by rw [e1], hocc2, ?_⟩
  have hposEq : ∀ i, posAt (pushByte b x) i = posAt b i := by
    intro i
    rw [e1]
    rfl
  have hdata : (pushByte b x).data = b.data.set b.head x := by rw [e1]
  simp only [absBuf, hocc2, hdata, hposEq]
  rw [List.range_succ, List.map_append]
  congr 1
  · apply List.map_congr_left
    intro i hi
    have hi' : i < occupancy b := List.mem_range.mp hi
    have hocc_le := occ_le b hh ht
    apply getD_set_ne
    intro hcontra
    rw [← posAt_occ b hh ht] at hcontra
    have := posAt_inj b (occupancy b) i ht hocc_le (by omega) hcontra
    omega
  · simp only [List.map_cons, List.map_nil]
    rw [posAt_occ b hh ht, getD_set_self _ _ _ (by have := ring_le_len b hWF; omega)]

theorem pushByte_full_ov (b : Buffer) (x : Nat) (hWF : WFB b) (hf : isBufferFull b = true)
    (hov : b.overwrite = true) :
    occupancy (pushByte b x) = (b.depth - 1) * b.width := by
  have hh := hWF.hhead
  have ht := hWF.htail
  have hf' : b.tail = b.head + 1 ∨ (b.tail = 0 ∧ (b.depth - 1) * b.width ≤ b.head) := by
    simpa [isBufferFull, Bool.or_eq_true, Bool.and_eq_true, beq_iff_eq,
      decide_eq_true_eq] using hf
  simp only [pushByte, hf, hov, Bool.and_self, if_pos]
  simp only [occupancy, increment, ringSize]
  split_ifs <;> omega

theorem popByte_queue (b : Buffer) (hWF : WFB b) (hs : b.stack = false)
    (hpos : 0 < occupancy b) :
    (popByte b).2 = (absBuf b).getD 0 0 ∧
    absBuf (popByte b).1 = (absBuf b).drop 1 ∧
    occupancy (popByte b).1 = occupancy b - 1 ∧
    (popByte b).1.head = b.head ∧ (popByte b).1.tail = increment b b.tail := by
  have hh := hWF.hhead
  have ht := hWF.htail
  have e1 : (popByte b).1 = { b with tail := increment b b.tail } := by simp [popByte, hs]
  have e2 : (popByte b).2 = b.data.getD b.tail 0 := by simp [popByte, hs]
  have hocc2 : occupancy (popByte b).1 = occupancy b - 1 := by
    rw [e1]
    exact occ_tail_inc b hh ht hpos
  refine ⟨?_, ?_, hocc2, by rw [e1], by rw [e1]⟩
  · rw [e2, ← posAt_zero b ht]
    unfold absBuf
    rw [getD_map_range _ _ _ hpos]
  · have hdata : (popByte b).1.data = b.data := by rw [e1]
    simp only [absBuf, hocc2, hdata]
    have hposEq : ∀ i ∈ List.range (occupancy b - 1), posAt (popByte b).1 i = posAt b (i + 1) := by
      intro i hi
      have hi' : i < occupancy b - 1 := List.mem_range.mp hi
      have hocc_le := occ_le b hh ht
      rw [e1]
      exact posAt_tail_inc b i ht (by omega)
    rw [List.map_congr_left (fun i hi => by rw [hposEq i hi])]
    have hsucc : occupancy b = occupancy b - 1 + 1 := by omega
    rw [hsucc, List.range_succ_eq_map, List.map_cons, List.drop_succ_cons, List.drop_zero,
      List.map_map]
    rfl

theorem popByte_stack (b : Buffer) (hWF : WFB b) (hs : b.stack = true)
    (hpos : 0 < occupancy b) :
    (popByte b).2 = (absBuf b).getD (occupancy b - 1) 0 ∧
    absBuf (popByte b).1 = (absBuf b).take (occupancy b - 1) ∧
    occupancy (popByte b).1 = occupancy b - 1 ∧
    (popByte b).1.tail = b.tail ∧ (popByte b).1.head = decrement b b.head := by
  have hh := hWF.hhead
  have ht := hWF.htail
  have e1 : (popByte b).1 = { b with head := decrement b b.head } := by simp [popByte, hs]
  have e2 : (popByte b).2 = b.data.getD (decrement b b.head) 0 := by simp [popByte, hs]
  have hocc2 : occupancy (popByte b).1 = occupancy b - 1 := by
    rw [e1]
    exact occ_head_dec b hh ht hpos
  refine ⟨?_, ?_, hocc2, by rw [e1], by rw [e1]⟩
  · rw [e2, ← posAt_occ_pred b hh ht hpos]
    unfold absBuf
    rw [getD_map_range _ _ _ (by omega)]
  · have hdata : (popByte b).1.data = b.data := by rw [e1]
    have hposEq : ∀ i, posAt (popByte b).1 i = posAt b i := by
      intro i
      rw [e1]
      rfl
    simp only [absBuf, hocc2, hdata, hposEq]
    rw [← List.map_take]
    congr 1
    rw [List.take_range]
    congr 1
    omega

/-! ### Element-level lemmas: push side -/

theorem length_absBuf (b : Buffer) : (absBuf b).length = occupancy b := by
  simp [absBuf]

theorem pushByte_width (b : Buffer) (x : Nat) : (pushByte b x).width = b.width :=
  (shape_pushByte b x).2.1

theorem pushByte_depth (b : Buffer) (x : Nat) : (pushByte b x).depth = b.depth :=
  (shape_pushByte b x).1

theorem pushByte_stackF (b : Buffer) (x : Nat) : (pushByte b x).stack = b.stack :=
  (shape_pushByte b x).2.2.1

theorem pushByte_overwrite (b : Buffer) (x : Nat) : (pushByte b x).overwrite = b.overwrite :=
  (shape_pushByte b x).2.2.2.1

theorem popByte_width (b : Buffer) : (popByte b).1.width = b.width :=
  (shape_popByte b).2.1

theorem popByte_depth (b : Buffer) : (popByte b).1.depth = b.depth :=
  (shape_popByte b).1

theorem popByte_stackF (b : Buffer) : (popByte b).1.stack = b.stack :=
  (shape_popByte b).2.2.1

theorem popByte_overwriteF (b : Buffer) : (popByte b).1.overwrite = b.overwrite :=
  (shape_popByte b).2.2.2.1

theorem absBuf_head_dec (b : Buffer) (hWF : WFB b) (hpos : 0 < occupancy b) :
    absBuf { b with head := decrement b b.head } = (absBuf b).take (occupancy b - 1) := by
  have hh := hWF.hhead
  have ht := hWF.htail
  have hocc2 := occ_head_dec b hh ht hpos
  have hposEq : ∀ i, posAt { b with head := decrement b b.head } i = posAt b i := fun i => rfl
  simp only [absBuf, hocc2, hposEq]
  rw [← List.map_take]
  congr 1
  rw [List.take_range]
  congr 1
  omega

theorem shape_pushElement : ∀ (n : Nat) (b : Buffer) (d : List Nat) (ei : Nat),
    ShapeEq b (pushElement b d ei n).1
  | 0, b, _, _ => shapeEq_refl b
  | n + 1, b, d, ei => by
      simp only [pushElement]
      split_ifs with hg
      · exact shapeEq_trans (shape_pushByte b _) (shape_pushElement n _ d ei)
      · exact shape_rollbackHead _ b

theorem shape_popElement : ∀ (n : Nat) (b : Buffer) (d : List Nat) (ei : Nat),
    ShapeEq b (popElement b d ei n).1
  | 0, b, _, _ => shapeEq_refl b
  | n + 1, b, d, ei => by
      simp only [popElement]
      split_ifs with hg hs
      · exact shapeEq_trans (shape_popByte b) (shape_popElement n _ _ ei)
      · exact shapeEq_trans (shape_popByte b) (shape_popElement n _ _ ei)
      · exact shape_pushBackFailed _ b d ei

theorem rollbackHead_spec : ∀ (k : Nat) (b : Buffer), WFB b → k ≤ occupancy b →
    (rollbackHead b k).tail = b.tail ∧
    occupancy (rollbackHead b k) = occupancy b - k ∧
    WFB (rollbackHead b k) ∧
    absBuf (rollbackHead b k) = (absBuf b).take (occupancy b - k)
  | 0, b, hWF, _ => by
      refine ⟨rfl, by simp [rollbackHead], by simpa [rollbackHead] using hWF, ?_⟩
      simp only [rollbackHead, Nat.sub_zero]
      rw [← length_absBuf, List.take_length]
  | k + 1, b, hWF, hk => by
      have hh := hWF.hhead
      have ht := hWF.htail
      have hpos : 0 < occupancy b := by omega
      have e1 : rollbackHead b (k + 1) = rollbackHead { b with head := decrement b b.head } k := by
        simp [rollbackHead]
      have hWF1 : WFB { b with head := decrement b b.head } :=
        wfb_of_shape hWF ⟨rfl, rfl, rfl, rfl, rfl⟩ (decrement_le _ _ hh) ht
      have hocc1 : occupancy { b with head := decrement b b.head } = occupancy b - 1 :=
        occ_head_dec b hh ht hpos
      have habs1 := absBuf_head_dec b hWF hpos
      obtain ⟨ih1, ih2, ih3, ih4⟩ :=
        rollbackHead_spec k { b with head := decrement b b.head } hWF1 (by omega)
      rw [e1]
      refine ⟨ih1, by rw [ih2, hocc1]; omega, ih3, ?_⟩
      rw [ih4, hocc1, habs1, List.take_take]
      congr 1
      omega

theorem pushElement_noFull : ∀ (n : Nat) (b : Buffer) (d : List Nat) (ei : Nat),
    WFB b → n ≤ b.width → occupancy b + n ≤ (b.depth - 1) * b.width →
    (pushElement b d ei n).2 = none ∧
    (pushElement b d ei n).1.tail = b.tail ∧
    occupancy (pushElement b d ei n).1 = occupancy b + n ∧
    WFB (pushElement b d ei n).1 ∧
    absBuf (pushElement b d ei n).1 =
      absBuf b ++ (List.range n).map (fun j => d.getD (ei * b.width + (b.width - n) + j) 0)
  | 0, b, d, ei, hWF, _, _ => by
      simp [pushElement, hWF]
  | n + 1, b, d, ei, hWF, hn, hocc => by
      have hh := hWF.hhead
      have ht := hWF.htail
      have hnf : isBufferFull b = false := (notFull_iff_occ b hh ht).mpr (by omega)
      have e1 : pushElement b d ei (n + 1) =
          pushElement (pushByte b (d.getD (ei * b.width + (b.width - (n + 1))) 0)) d ei n := by
        simp [pushElement, hnf]
      obtain ⟨ph, pt, pocc, pabs⟩ :=
        pushByte_notFull b (d.getD (ei * b.width + (b.width - (n + 1))) 0) hWF hnf
      have hWF1 := wfb_pushByte b (d.getD (ei * b.width + (b.width - (n + 1))) 0) hWF
      have hM1 : ((pushByte b (d.getD (ei * b.width + (b.width - (n + 1))) 0)).depth - 1) *
          (pushByte b (d.getD (ei * b.width + (b.width - (n + 1))) 0)).width =
          (b.depth - 1) * b.width := by
        rw [pushByte_depth, pushByte_width]
      obtain ⟨ih1, ih2, ih3, ih4, ih5⟩ :=
        pushElement_noFull n (pushByte b (d.getD (ei * b.width + (b.width - (n + 1))) 0)) d ei
          hWF1 (by rw [pushByte_width]; omega) (by rw [hM1, pocc]; omega)
      rw [e1]
      refine ⟨ih1, by rw [ih2, pt], by rw [ih3, pocc]; omega, ih4, ?_⟩
      rw [ih5, pabs, pushByte_width]
      rw [List.range_succ_eq_map, List.map_cons, List.map_map]
      have harith0 : ei * b.width + (b.width - (n + 1)) + 0 = ei * b.width + (b.width - (n + 1)) := by
        omega
      have harith : ∀ j ∈ List.range n,
          ((fun j => d.getD (ei * b.width + (b.width - (n + 1)) + j) 0) ∘ Nat.succ) j =
          (fun j => d.getD (ei * b.width + (b.width - n) + j) 0) j := by
        intro j _
        simp only [Function.comp]
        congr 1
        omega
      rw [List.map_congr_left harith]
      simp [harith0]

theorem pushElement_fail : ∀ (n : Nat) (b : Buffer) (d : List Nat) (ei : Nat),
    WFB b → b.overwrite = false → n ≤ b.width → b.width - n ≤ occupancy b →
    ∀ bj, (pushElement b d ei n).2 = some bj →
    (pushElement b d ei n).1.tail = b.tail ∧
    occupancy (pushElement b d ei n).1 = occupancy b - (b.width - n) ∧
    absBuf (pushElement b d ei n).1 = (absBuf b).take (occupancy b - (b.width - n)) ∧
    WFB (pushElement b d ei n).1
  | 0, b, d, ei, _, _, _, _, bj, h => by simp [pushElement] at h
  | n + 1, b, d, ei, hWF, hov, hn, hocc, bj, h => by
      have hh := hWF.hhead
      have ht := hWF.htail
      by_cases hf : isBufferFull b = true
      · have e1 : pushElement b d ei (n + 1) =
            (rollbackHead b (b.width - (n + 1)), some (b.width - (n + 1))) := by
          simp [pushElement, hf, hov]
        obtain ⟨r1, r2, r3, r4⟩ := rollbackHead_spec (b.width - (n + 1)) b hWF (by omega)
        rw [e1]
        exact ⟨r1, r2, r4, r3⟩
      · have hnf : isBufferFull b = false := by
          cases hb : isBufferFull b
          · rfl
          · exact absurd hb hf
        have e1 : pushElement b d ei (n + 1) =
            pushElement (pushByte b (d.getD (ei * b.width + (b.width - (n + 1))) 0)) d ei n := by
          simp [pushElement, hnf]
        obtain ⟨ph, pt, pocc, pabs⟩ :=
          pushByte_notFull b (d.getD (ei * b.width + (b.width - (n + 1))) 0) hWF hnf
        have hWF1 := wfb_pushByte b (d.getD (ei * b.width + (b.width - (n + 1))) 0) hWF
        rw [e1] at h
        obtain ⟨ih1, ih2, ih3, ih4⟩ :=
          pushElement_fail n (pushByte b (d.getD (ei * b.width + (b.width - (n + 1))) 0)) d ei
            hWF1 (by rw [pushByte_overwrite]; exact hov) (by rw [pushByte_width]; omega)
            (by rw [pushByte_width, pocc]; omega) bj h
        rw [e1]
        refine ⟨by rw [ih1, pt], ?_, ?_, ih4⟩
        · rw [ih2, pocc, pushByte_width]
          omega
        · rw [ih3, pabs, pushByte_width, pocc]
          rw [List.take_append_of_le_length (by rw [length_absBuf]; omega)]
          congr 1
          omega

/-! ### Element-level lemmas: pop side and boundary cases -/

theorem popElement_empty (b : Buffer) (d : List Nat) (ei k : Nat) (hwid : b.width = k + 1)
    (hemp : isBufferEmpty b = true) :
    popElement b d ei b.width = (b, d, some 0) := by
  conv_lhs => rw [hwid]
  simp [popElement, hemp, hwid, pushBackFailed]

theorem pushElement_full_drop (b : Buffer) (d : List Nat) (ei k : Nat) (hwid : b.width = k + 1)
    (hf : isBufferFull b = true) (hov : b.overwrite = false) :
    pushElement b d ei b.width = (b, some 0) := by
  conv_lhs => rw [hwid]
  simp [pushElement, hf, hov, hwid, rollbackHead]

theorem pushElement_full_ov : ∀ (n : Nat) (b : Buffer) (d : List Nat) (ei : Nat),
    WFB b → b.overwrite = true → occupancy b = (b.depth - 1) * b.width →
    (pushElement b d ei n).2 = none ∧
    occupancy (pushElement b d ei n).1 = (b.depth - 1) * b.width ∧
    WFB (pushElement b d ei n).1
  | 0, b, d, ei, hWF, _, hocc => by simp [pushElement, hWF, hocc.symm]
  | n + 1, b, d, ei, hWF, hov, hocc => by
      have hh := hWF.hhead
      have ht := hWF.htail
      have hf : isBufferFull b = true := (full_iff_occ b hh ht).mpr hocc
      have e1 : pushElement b d ei (n + 1) =
          pushElement (pushByte b (d.getD (ei * b.width + (b.width - (n + 1))) 0)) d ei n := by
        simp [pushElement, hov]
      have pocc := pushByte_full_ov b (d.getD (ei * b.width + (b.width - (n + 1))) 0) hWF hf hov
      have hWF1 := wfb_pushByte b (d.getD (ei * b.width + (b.width - (n + 1))) 0) hWF
      have hM1 : ((pushByte b (d.getD (ei * b.width + (b.width - (n + 1))) 0)).depth - 1) *
          (pushByte b (d.getD (ei * b.width + (b.width - (n + 1))) 0)).width =
          (b.depth - 1) * b.width := by
        rw [pushByte_depth, pushByte_width]
      obtain ⟨ih1, ih2, ih3⟩ :=
        pushElement_full_ov n (pushByte b (d.getD (ei * b.width + (b.width - (n + 1))) 0)) d ei
          hWF1 (by rw [pushByte_overwrite]; exact hov) (by rw [hM1, pocc])
      rw [e1]
      exact ⟨ih1, by rw [ih2, hM1], ih3⟩

theorem popElement_queue : ∀ (n : Nat) (b : Buffer) (d : List Nat) (ei : Nat),
    WFB b → b.stack = false → n ≤ b.width → n ≤ occupancy b →
    (popElement b d ei n).2.2 = none ∧
    (popElement b d ei n).1.head = b.head ∧
    occupancy (popElement b d ei n).1 = occupancy b - n ∧
    absBuf (popElement b d ei n).1 = (absBuf b).drop n ∧
    (popElement b d ei n).2.1 = setSeq d (ei * b.width + (b.width - n)) ((absBuf b).take n) ∧
    WFB (popElement b d ei n).1
  | 0, b, d, ei, hWF, _, _, _ => by
      simp [popElement, setSeq, hWF]
  | n + 1, b, d, ei, hWF, hs, hn, hocc => by
      have hh := hWF.hhead
      have ht := hWF.htail
      have hpos : 0 < occupancy b := by omega
      have hne : isBufferEmpty b = false := (notEmpty_iff_occ b ht).mpr hpos
      have e1 : popElement b d ei (n + 1) =
          popElement (popByte b).1 (d.set (ei * b.width + (b.width - (n + 1))) (popByte b).2)
            ei n := by
        simp [popElement, hne, hs]
      obtain ⟨pv, pa, po, phd, ptl⟩ := popByte_queue b hWF hs hpos
      have hWF1 := wfb_popByte b hWF
      obtain ⟨ih1, ih2, ih3, ih4, ih5, ih6⟩ :=
        popElement_queue n (popByte b).1 (d.set (ei * b.width + (b.width - (n + 1))) (popByte b).2)
          ei hWF1 (by rw [popByte_stackF]; exact hs) (by rw [popByte_width]; omega)
          (by rw [po]; omega)
      rw [e1]
      refine ⟨ih1, by rw [ih2, phd], by rw [ih3, po]; omega, ?_, ?_, ih6⟩
      · rw [ih4, pa, List.drop_drop]
        congr 1
        omega
      · rw [ih5, pa, pv, popByte_width]
        have hlen : 0 < (absBuf b).length := by rw [length_absBuf]; omega
        rcases habs : absBuf b with _ | ⟨a, t⟩
        · rw [habs] at hlen; simp at hlen
        · simp only [List.getD_cons_zero, List.drop_succ_cons, List.drop_zero,
            List.take_succ_cons]
          rw [setSeq]
          have harith : ei * b.width + (b.width - (n + 1)) + 1 = ei * b.width + (b.width - n) := by
            omega
          rw [harith]

theorem popElement_stack : ∀ (n : Nat) (b : Buffer) (d : List Nat) (ei : Nat),
    WFB b → b.stack = true → n ≤ b.width → n ≤ occupancy b →
    (popElement b d ei n).2.2 = none ∧
    (popElement b d ei n).1.tail = b.tail ∧
    occupancy (popElement b d ei n).1 = occupancy b - n ∧
    absBuf (popElement b d ei n).1 = (absBuf b).take (occupancy b - n) ∧
    (popElement b d ei n).2.1 = setSeq d (ei * b.width) ((absBuf b).drop (occupancy b - n)) ∧
    WFB (popElement b d ei n).1
  | 0, b, d, ei, hWF, _, _, _ => by
      refine ⟨rfl, rfl, by simp [popElement], ?_, ?_, by simpa [popElement] using hWF⟩
      · simp only [popElement, Nat.sub_zero]
        rw [← length_absBuf, List.take_length]
      · simp [popElement, setSeq, List.drop_eq_nil_of_le, length_absBuf]
  | n + 1, b, d, ei, hWF, hs, hn, hocc => by
      have hh := hWF.hhead
      have ht := hWF.htail
      have hpos : 0 < occupancy b := by omega
      have hne : isBufferEmpty b = false := (notEmpty_iff_occ b ht).mpr hpos
      have e1 : popElement b d ei (n + 1) =
          popElement (popByte b).1
            (d.set ((ei + 1) * b.width - 1 - (b.width - (n + 1))) (popByte b).2) ei n := by
        simp [popElement, hne, hs]
      have hmul : (ei + 1) * b.width = ei * b.width + b.width := Nat.succ_mul _ _
      have hidx : (ei + 1) * b.width - 1 - (b.width - (n + 1)) = ei * b.width + n := by
        omega
      obtain ⟨pv, pa, po, ptl, phd⟩ := popByte_stack b hWF hs hpos
      have hWF1 := wfb_popByte b hWF
      obtain ⟨ih1, ih2, ih3, ih4, ih5, ih6⟩ :=
        popElement_stack n (popByte b).1
          (d.set ((ei + 1) * b.width - 1 - (b.width - (n + 1))) (popByte b).2) ei hWF1
          (by rw [popByte_stackF]; exact hs) (by rw [popByte_width]; omega) (by rw [po]; omega)
      rw [e1]
      refine ⟨ih1, by rw [ih2, ptl], by rw [ih3, po]; omega, ?_, ?_, ih6⟩
      · rw [ih4, pa, po, List.take_take]
        congr 1
        omega
      · have hlen : (absBuf b).length = occupancy b := length_absBuf b
        have hlast : (absBuf b).drop (occupancy b - (n + 1)) =
            ((absBuf b).take (occupancy b - 1)).drop (occupancy b - 1 - n) ++
              [(absBuf b).getD (occupancy b - 1) 0] := by
          have hlt : ((absBuf b).take (occupancy b - 1)).length = occupancy b - 1 := by
            simp [hlen]
          have hdrop1 : (absBuf b).drop (occupancy b - 1) =
              [(absBuf b).getD (occupancy b - 1) 0] := by
            rw [List.drop_eq_getElem_cons (by omega)]
            rw [List.drop_eq_nil_of_le (by omega), List.getD_eq_getElem _ _ (by omega)]
          conv_lhs => rw [← List.take_append_drop (occupancy b - 1) (absBuf b), hdrop1]
          rw [List.drop_append_eq_append_drop, hlt]
          have h0 : occupancy b - (n + 1) - (occupancy b - 1) = 0 := by omega
          have h1 : occupancy b - (n + 1) = occupancy b - 1 - n := by omega
          rw [h0, h1, List.drop_zero]
        have hxslen : (((absBuf b).take (occupancy b - 1)).drop (occupancy b - 1 - n)).length = n := by
          simp [hlen]
          omega
        rw [ih5, pa, po, pv, popByte_width, hidx, hlast, setSeq_append, hxslen,
          setSeq_set_comm _ _ _ _ _ (by rw [hxslen])]
        simp [setSeq]

/-! ### Bulk-call lemmas -/

theorem wfb_pushElement : ∀ (n : Nat) (b : Buffer) (d : List Nat) (ei : Nat),
    WFB b → WFB (pushElement b d ei n).1
  | 0, _, _, _, h => h
  | n + 1, b, d, ei, h => by
      simp only [pushElement]
      split_ifs with hg
      · exact wfb_pushElement n _ d ei (wfb_pushByte b _ h)
      · exact wfb_rollbackHead _ b h

theorem absBuf_take_occ (b : Buffer) : (absBuf b).take (occupancy b) = absBuf b := by
  rw [← length_absBuf, List.take_length]

theorem head_eq_of_occ_eq (b c : Buffer) (hh : b.head ≤ (b.depth - 1) * b.width)
    (htb : b.tail ≤ (b.depth - 1) * b.width)
    (hch : c.head ≤ (c.depth - 1) * c.width)
    (hM : (c.depth - 1) * c.width = (b.depth - 1) * b.width)
    (htl : c.tail = b.tail) (hocc : occupancy c = occupancy b) : c.head = b.head := by
  have ht' := hch
  rw [hM] at ht'
  simp only [occupancy, ringSize] at hocc
  rw [htl, hM] at hocc
  split_ifs at hocc <;> omega

theorem wfb_newBuffer (cap w : Nat) (st ov : Bool) (hw : 0 < w) :
    WFB (newBuffer cap w st ov) :=
  ⟨hw, Nat.succ_pos _, Nat.zero_le _, Nat.zero_le _, by simp [newBuffer]⟩

theorem occupancy_newBuffer (cap w : Nat) (st ov : Bool) :
    occupancy (newBuffer cap w st ov) = 0 := by
  simp [occupancy, newBuffer]

theorem absBuf_newBuffer (cap w : Nat) (st ov : Bool) :
    absBuf (newBuffer cap w st ov) = [] := by
  simp [absBuf, occupancy_newBuffer]

theorem pushSeq_spec : ∀ (es : List (List Nat)) (b : Buffer),
    WFB b → (∀ e ∈ es, e.length = b.width) →
    occupancy b + es.length * b.width ≤ (b.depth - 1) * b.width →
    (pushSeq b es).2 = 0 ∧
    WFB (pushSeq b es).1 ∧ ShapeEq b (pushSeq b es).1 ∧
    absBuf (pushSeq b es).1 = absBuf b ++ flatBytes es ∧
    occupancy (pushSeq b es).1 = occupancy b + es.length * b.width
  | [], b, hWF, _, _ => by
      simp [pushSeq, flatBytes, shapeEq_refl, hWF]
  | e :: es, b, hWF, hlen, hocc => by
      have hw : e.length = b.width := hlen e (by simp)
      have hmul : (es.length + 1) * b.width = es.length * b.width + b.width := Nat.succ_mul _ _
      have hlist : (e :: es).length = es.length + 1 := rfl
      rw [hlist, hmul] at hocc
      have hocc1 : occupancy b + b.width ≤ (b.depth - 1) * b.width := by omega
      obtain ⟨p1, p2, p3, p4, p5⟩ :=
        pushElement_noFull b.width b e 0 hWF (Nat.le_refl _) hocc1
      have e1 : pushToBuffer b e 1 = ((pushElement b e 0 b.width).1, 0) := by
        simp [pushToBuffer, pushToBufferAux, p1]
      have hshape1 : ShapeEq b (pushElement b e 0 b.width).1 := shape_pushElement b.width b e 0
      have habs1 : absBuf (pushElement b e 0 b.width).1 = absBuf b ++ e := by
        rw [p5]
        congr 1
        have hcongr : ∀ j ∈ List.range b.width,
            (fun j => e.getD (0 * b.width + (b.width - b.width) + j) 0) j =
            (fun j => e.getD j 0) j := by
          intro j _
          simp only []
          congr 1
          omega
        rw [List.map_congr_left hcongr, ← hw, map_range_getD]
      have hlen1 : ∀ x ∈ es, x.length = (pushElement b e 0 b.width).1.width := by
        intro x hx
        rw [hshape1.2.1]
        exact hlen x (by simp [hx])
      have hocc2 : occupancy (pushElement b e 0 b.width).1 +
          es.length * (pushElement b e 0 b.width).1.width ≤
          (((pushElement b e 0 b.width).1.depth - 1) * (pushElement b e 0 b.width).1.width) := by
        rw [hshape1.2.1, hshape1.1, p3]
        omega
      obtain ⟨ih1, ih2, ih3, ih4, ih5⟩ :=
        pushSeq_spec es (pushElement b e 0 b.width).1 p4 hlen1 hocc2
      have e2 : pushSeq b (e :: es) =
          ((pushSeq (pushElement b e 0 b.width).1 es).1,
            0 + (pushSeq (pushElement b e 0 b.width).1 es).2) := by
        simp [pushSeq, e1]
      rw [e2]
      refine ⟨by simp [ih1], ih2, shapeEq_trans hshape1 ih3, ?_, ?_⟩
      · rw [ih4, habs1, flatBytes, List.append_assoc]
      · rw [ih5, p3, hshape1.2.1, hlist, hmul]
        omega

theorem popAux_queue : ∀ (rs : List (List Nat)) (b : Buffer) (d : List Nat) (l ei : Nat),
    WFB b → b.stack = false → (∀ e ∈ rs, e.length = b.width) →
    absBuf b = flatBytes rs →
    (popFromBufferAux b d l ei rs.length).failed = 0 ∧
    (popFromBufferAux b d l ei rs.length).ghost = none ∧
    (popFromBufferAux b d l ei rs.length).dest = setSeq d (ei * b.width) (flatBytes rs) ∧
    absBuf (popFromBufferAux b d l ei rs.length).buf = []
  | [], b, d, l, ei, _, _, _, habs => by
      refine ⟨rfl, rfl, by simp [popFromBufferAux, setSeq, flatBytes], ?_⟩
      simpa [popFromBufferAux, flatBytes] using habs
  | e :: rs, b, d, l, ei, hWF, hs, hlen, habs => by
      have hw : e.length = b.width := hlen e (by simp)
      have hocclen : occupancy b = (flatBytes (e :: rs)).length := by
        rw [← habs, length_absBuf]
      have hocc : b.width ≤ occupancy b := by
        rw [hocclen]
        simp [flatBytes, hw]
      obtain ⟨q1, q2, q3, q4, q5, q6⟩ :=
        popElement_queue b.width b d ei hWF hs (Nat.le_refl _) hocc
      have e1 : popFromBufferAux b d l ei ((e :: rs).length) =
          popFromBufferAux (popElement b d ei b.width).1 (popElement b d ei b.width).2.1 l
            (ei + 1) rs.length := by
        simp [popFromBufferAux, q1]
      have hshape1 : ShapeEq b (popElement b d ei b.width).1 := shape_popElement b.width b d ei
      have habs1 : absBuf (popElement b d ei b.width).1 = flatBytes rs := by
        rw [q4, habs, flatBytes, List.drop_left' hw]
      have hdest1 : (popElement b d ei b.width).2.1 = setSeq d (ei * b.width) e := by
        rw [q5, habs, flatBytes, Nat.sub_self, Nat.add_zero, List.take_left' hw]
      have hlen1 : ∀ x ∈ rs, x.length = (popElement b d ei b.width).1.width := by
        intro x hx
        rw [hshape1.2.1]
        exact hlen x (by simp [hx])
      obtain ⟨ih1, ih2, ih3, ih4⟩ :=
        popAux_queue rs (popElement b d ei b.width).1 (popElement b d ei b.width).2.1 l (ei + 1)
          q6 (by rw [hshape1.2.2.1]; exact hs) hlen1 habs1
      rw [e1]
      refine ⟨ih1, ih2, ?_, ih4⟩
      rw [ih3, hdest1, hshape1.2.1]
      rw [show flatBytes (e :: rs) = e ++ flatBytes rs from rfl, setSeq_append]
      congr 1
      rw [hw, Nat.succ_mul]

theorem popAux_stack (rs : List (List Nat)) : ∀ (b : Buffer) (d : List Nat) (l ei : Nat),
    WFB b → b.stack = true → (∀ e ∈ rs, e.length = b.width) →
    absBuf b = flatBytes rs →
    (popFromBufferAux b d l ei rs.length).failed = 0 ∧
    (popFromBufferAux b d l ei rs.length).ghost = none ∧
    (popFromBufferAux b d l ei rs.length).dest = setSeq d (ei * b.width) (flatBytes rs.reverse) ∧
    absBuf (popFromBufferAux b d l ei rs.length).buf = [] := by
  induction rs using List.reverseRecOn with
  | nil =>
      intro b d l ei _ _ _ habs
      refine ⟨rfl, rfl, by simp [popFromBufferAux, setSeq, flatBytes], ?_⟩
      simpa [popFromBufferAux, flatBytes] using habs
  | append_singleton rs e ih =>
      intro b d l ei hWF hs hlen habs
      have hw : e.length = b.width := hlen e (by simp)
      have habs' : absBuf b = flatBytes rs ++ e := by
        rw [habs, flatBytes_append]
        simp [flatBytes]
      have hocclen : occupancy b = (flatBytes rs).length + b.width := by
        rw [← length_absBuf, habs']
        simp [hw]
      have hocc : b.width ≤ occupancy b := by omega
      obtain ⟨q1, q2, q3, q4, q5, q6⟩ :=
        popElement_stack b.width b d ei hWF hs (Nat.le_refl _) hocc
      have hlistlen : (rs ++ [e]).length = rs.length + 1 := by simp
      have e1 : popFromBufferAux b d l ei ((rs ++ [e]).length) =
          popFromBufferAux (popElement b d ei b.width).1 (popElement b d ei b.width).2.1 l
            (ei + 1) rs.length := by
        rw [hlistlen]
        simp [popFromBufferAux, q1]
      have hshape1 : ShapeEq b (popElement b d ei b.width).1 := shape_popElement b.width b d ei
      have habs1 : absBuf (popElement b d ei b.width).1 = flatBytes rs := by
        rw [q4, habs', hocclen]
        have hd : (flatBytes rs).length + b.width - b.width = (flatBytes rs).length := by omega
        rw [hd, List.take_left]
      have hdest1 : (popElement b d ei b.width).2.1 = setSeq d (ei * b.width) e := by
        rw [q5, habs', hocclen]
        have hd : (flatBytes rs).length + b.width - b.width = (flatBytes rs).length := by omega
        rw [hd, List.drop_left]
      have hlen1 : ∀ x ∈ rs, x.length = (popElement b d ei b.width).1.width := by
        intro x hx
        rw [hshape1.2.1]
        exact hlen x (by simp [hx])
      obtain ⟨ih1, ih2, ih3, ih4⟩ :=
        ih (popElement b d ei b.width).1 (popElement b d ei b.width).2.1 l (ei + 1) q6
          (by rw [hshape1.2.2.1]; exact hs) hlen1 habs1
      rw [e1]
      refine ⟨ih1, ih2, ?_, ih4⟩
      rw [ih3, hdest1, hshape1.2.1]
      have hrev : (rs ++ [e]).reverse = e :: rs.reverse := by simp
      rw [hrev, show flatBytes (e :: rs.reverse) = e ++ flatBytes rs.reverse from rfl,
        setSeq_append]
      congr 1
      rw [hw, Nat.succ_mul]

/-! ### Drop-policy push call characterization -/

theorem pushAux_l_irrel : ∀ (el : Nat) (b : Buffer) (d : List Nat) (l l' ei : Nat),
    (pushToBufferAux b d l ei el).buf = (pushToBufferAux b d l' ei el).buf ∧
    (pushToBufferAux b d l ei el).ghost = (pushToBufferAux b d l' ei el).ghost
  | 0, _, _, _, _, _ => ⟨rfl, rfl⟩
  | el + 1, b, d, l, l', ei => by
      cases hr : (pushElement b d ei b.width).2 with
      | none =>
          simp only [pushToBufferAux, hr]
          exact pushAux_l_irrel el _ d l l' (ei + 1)
      | some bi =>
          refine ⟨?_, ?_⟩ <;> simp only [pushToBufferAux, hr]

theorem pushAux_drop : ∀ (el : Nat) (b : Buffer) (d : List Nat) (l ei0 : Nat),
    WFB b → b.overwrite = false →
    WFB (pushToBufferAux b d l ei0 el).buf ∧
    ((pushToBufferAux b d l ei0 el).ghost = none → (pushToBufferAux b d l ei0 el).failed = 0) ∧
    (∀ ej bj, (pushToBufferAux b d l ei0 el).ghost = some (ej, bj) →
      ei0 ≤ ej ∧ ej < ei0 + el ∧ (pushToBufferAux b d l ei0 el).failed = l - ej ∧
      (pushToBufferAux b d l ei0 (ej - ei0)).ghost = none ∧
      (pushToBufferAux b d l ei0 el).buf.head = (pushToBufferAux b d l ei0 (ej - ei0)).buf.head ∧
      (pushToBufferAux b d l ei0 el).buf.tail = (pushToBufferAux b d l ei0 (ej - ei0)).buf.tail ∧
      absBuf (pushToBufferAux b d l ei0 el).buf = absBuf (pushToBufferAux b d l ei0 (ej - ei0)).buf)
  | 0, b, d, l, ei0, hWF, _ => by
      refine ⟨hWF, fun _ => rfl, ?_⟩
      intro ej bj h
      simp [pushToBufferAux] at h
  | el + 1, b, d, l, ei0, hWF, hov => by
      cases hr : (pushElement b d ei0 b.width).2 with
      | none =>
          have hWF1 := wfb_pushElement b.width b d ei0 hWF
          have hov1 : (pushElement b d ei0 b.width).1.overwrite = false := by
            rw [(shape_pushElement b.width b d ei0).2.2.2.1]
            exact hov
          obtain ⟨ihWF, ihnone, ihsome⟩ :=
            pushAux_drop el (pushElement b d ei0 b.width).1 d l (ei0 + 1) hWF1 hov1
          have e1 : pushToBufferAux b d l ei0 (el + 1) =
              pushToBufferAux (pushElement b d ei0 b.width).1 d l (ei0 + 1) el := by
            simp only [pushToBufferAux, hr]
          rw [e1]
          refine ⟨ihWF, ihnone, ?_⟩
          intro ej bj h
          obtain ⟨s1, s2, s3, s4, s5, s6, s7⟩ := ihsome ej bj h
          have e2 : pushToBufferAux b d l ei0 (ej - ei0) =
              pushToBufferAux (pushElement b d ei0 b.width).1 d l (ei0 + 1) (ej - (ei0 + 1)) := by
            have hsplit : ej - ei0 = (ej - (ei0 + 1)) + 1 := by omega
            rw [hsplit]
            simp only [pushToBufferAux, hr]
          rw [e2]
          exact ⟨by omega, by omega, s3, s4, s5, s6, s7⟩
      | some bi =>
          have e1 : pushToBufferAux b d l ei0 (el + 1) =
              ⟨(pushElement b d ei0 b.width).1, l - ei0, some (ei0, bi)⟩ := by
            simp only [pushToBufferAux, hr]
          obtain ⟨f1, f2, f3, f4⟩ :=
            pushElement_fail b.width b d ei0 hWF hov (Nat.le_refl _) (by omega) bi hr
          rw [e1]
          refine ⟨f4, ?_, ?_⟩
          · intro h
            simp at h
          · intro ej bj h
            have hinj : ei0 = ej ∧ bi = bj := by simpa using h
            obtain ⟨hej, hbj⟩ := hinj
            subst hej
            have e0 : pushToBufferAux b d l ei0 (ei0 - ei0) = ⟨b, 0, none⟩ := by
              simp [pushToBufferAux]
            refine ⟨Nat.le_refl _, by omega, rfl, by rw [e0], ?_, ?_, ?_⟩
            · rw [e0]
              exact head_eq_of_occ_eq b _ hWF.hhead hWF.htail f4.hhead
                (by rw [(shape_pushElement b.width b d ei0).1,
                  (shape_pushElement b.width b d ei0).2.1])
                f1 (by rw [f2]; omega)
            · rw [e0]
              exact f1
            · rw [e0, f3]
              have hz : occupancy b - (b.width - b.width) = occupancy b := by omega
              rw [hz, absBuf_take_occ]

/-! ### Occupancy-divisibility invariant machinery -/

theorem pushAux_inv : ∀ (el : Nat) (b : Buffer) (d : List Nat) (l ei : Nat),
    WFB b → b.width ∣ occupancy b →
    WFB (pushToBufferAux b d l ei el).buf ∧
    b.width ∣ occupancy (pushToBufferAux b d l ei el).buf ∧
    ShapeEq b (pushToBufferAux b d l ei el).buf ∧
    (∀ ej bj, (pushToBufferAux b d l ei el).ghost = some (ej, bj) → bj = 0)
  | 0, b, _, _, _, hWF, hdvd =>
      ⟨hWF, hdvd, shapeEq_refl b, fun ej bj h => by simp [pushToBufferAux] at h⟩
  | el + 1, b, d, l, ei, hWF, hdvd => by
      have hh := hWF.hhead
      have ht := hWF.htail
      have hMdvd : b.width ∣ (b.depth - 1) * b.width := dvd_mul_left b.width (b.depth - 1)
      have hsh := shape_pushElement b.width b d ei
      rcases Nat.lt_or_ge (occupancy b) ((b.depth - 1) * b.width) with hlt | hge
      · have hle : occupancy b + b.width ≤ (b.depth - 1) * b.width := by
          have hsub : b.width ∣ ((b.depth - 1) * b.width - occupancy b) :=
            Nat.dvd_sub' hMdvd hdvd
          have := Nat.le_of_dvd (by omega) hsub
          omega
        obtain ⟨p1, p2, p3, p4, p5⟩ :=
          pushElement_noFull b.width b d ei hWF (Nat.le_refl _) hle
        have e1 : pushToBufferAux b d l ei (el + 1) =
            pushToBufferAux (pushElement b d ei b.width).1 d l (ei + 1) el := by
          simp only [pushToBufferAux, p1]
        have hdvd1 : (pushElement b d ei b.width).1.width ∣
            occupancy (pushElement b d ei b.width).1 := by
          rw [hsh.2.1, p3]
          exact Nat.dvd_add hdvd dvd_rfl
        obtain ⟨i1, i2, i3, i4⟩ :=
          pushAux_inv el (pushElement b d ei b.width).1 d l (ei + 1) p4 hdvd1
        rw [e1]
        rw [hsh.2.1] at i2
        exact ⟨i1, i2, shapeEq_trans hsh i3, i4⟩
      · have hocceq : occupancy b = (b.depth - 1) * b.width :=
          Nat.le_antisymm (occ_le b hh ht) hge
        have hf : isBufferFull b = true := (full_iff_occ b hh ht).mpr hocceq
        cases hov : b.overwrite with
        | true =>
            obtain ⟨p1, p2, p3⟩ := pushElement_full_ov b.width b d ei hWF hov hocceq
            have e1 : pushToBufferAux b d l ei (el + 1) =
                pushToBufferAux (pushElement b d ei b.width).1 d l (ei + 1) el := by
              simp only [pushToBufferAux, p1]
            have hdvd1 : (pushElement b d ei b.width).1.width ∣
                occupancy (pushElement b d ei b.width).1 := by
              rw [hsh.2.1, p2]
              exact hMdvd
            obtain ⟨i1, i2, i3, i4⟩ :=
              pushAux_inv el (pushElement b d ei b.width).1 d l (ei + 1) p3 hdvd1
            rw [e1]
            rw [hsh.2.1] at i2
            exact ⟨i1, i2, shapeEq_trans hsh i3, i4⟩
        | false =>
            obtain ⟨k, hk⟩ : ∃ k, b.width = k + 1 := ⟨b.width - 1, by have := hWF.hw; omega⟩
            have hfe : pushElement b d ei b.width = (b, some 0) :=
              pushElement_full_drop b d ei k hk hf hov
            have e1 : pushToBufferAux b d l ei (el + 1) = ⟨b, l - ei, some (ei, 0)⟩ := by
              simp only [pushToBufferAux, hfe]
            rw [e1]
            refine ⟨hWF, hdvd, shapeEq_refl b, ?_⟩
            intro ej bj h
            have : ei = ej ∧ 0 = bj := by simpa using h
            omega

theorem popAux_inv : ∀ (el : Nat) (b : Buffer) (d : List Nat) (l ei : Nat),
    WFB b → b.width ∣ occupancy b →
    WFB (popFromBufferAux b d l ei el).buf ∧
    b.width ∣ occupancy (popFromBufferAux b d l ei el).buf ∧
    ShapeEq b (popFromBufferAux b d l ei el).buf ∧
    (∀ ej bj, (popFromBufferAux b d l ei el).ghost = some (ej, bj) → bj = 0)
  | 0, b, _, _, _, hWF, hdvd =>
      ⟨hWF, hdvd, shapeEq_refl b, fun ej bj h => by simp [popFromBufferAux] at h⟩
  | el + 1, b, d, l, ei, hWF, hdvd => by
      have ht := hWF.htail
      have hsh := shape_popElement b.width b d ei
      rcases Nat.eq_zero_or_pos (occupancy b) with hz | hpos
      · have hemp : isBufferEmpty b = true := (empty_iff_occ b ht).mpr hz
        obtain ⟨k, hk⟩ : ∃ k, b.width = k + 1 := ⟨b.width - 1, by have := hWF.hw; omega⟩
        have hfe : popElement b d ei b.width = (b, d, some 0) :=
          popElement_empty b d ei k hk hemp
        have e1 : popFromBufferAux b d l ei (el + 1) = ⟨b, d, l - ei, some (ei, 0)⟩ := by
          simp only [popFromBufferAux, hfe]
        rw [e1]
        refine ⟨hWF, hdvd, shapeEq_refl b, ?_⟩
        intro ej bj h
        have : ei = ej ∧ 0 = bj := by simpa using h
        omega
      · have hwocc : b.width ≤ occupancy b := Nat.le_of_dvd hpos hdvd
        cases hst : b.stack with
        | false =>
            obtain ⟨q1, q2, q3, q4, q5, q6⟩ :=
              popElement_queue b.width b d ei hWF hst (Nat.le_refl _) hwocc
            have e1 : popFromBufferAux b d l ei (el + 1) =
                popFromBufferAux (popElement b d ei b.width).1 (popElement b d ei b.width).2.1 l
                  (ei + 1) el := by
              simp only [popFromBufferAux, q1]
            have hdvd1 : (popElement b d ei b.width).1.width ∣
                occupancy (popElement b d ei b.width).1 := by
              rw [hsh.2.1, q3]
              exact Nat.dvd_sub' hdvd dvd_rfl
            obtain ⟨i1, i2, i3, i4⟩ :=
              popAux_inv el (popElement b d ei b.width).1 (popElement b d ei b.width).2.1 l
                (ei + 1) q6 hdvd1
            rw [e1]
            rw [hsh.2.1] at i2
            exact ⟨i1, i2, shapeEq_trans hsh i3, i4⟩
        | true =>
            obtain ⟨q1, q2, q3, q4, q5, q6⟩ :=
              popElement_stack b.width b d ei hWF hst (Nat.le_refl _) hwocc
            have e1 : popFromBufferAux b d l ei (el + 1) =
                popFromBufferAux (popElement b d ei b.width).1 (popElement b d ei b.width).2.1 l
                  (ei + 1) el := by
              simp only [popFromBufferAux, q1]
            have hdvd1 : (popElement b d ei b.width).1.width ∣
                occupancy (popElement b d ei b.width).1 := by
              rw [hsh.2.1, q3]
              exact Nat.dvd_sub' hdvd dvd_rfl
            obtain ⟨i1, i2, i3, i4⟩ :=
              popAux_inv el (popElement b d ei b.width).1 (popElement b d ei b.width).2.1 l
                (ei + 1) q6 hdvd1
            rw [e1]
            rw [hsh.2.1] at i2
            exact ⟨i1, i2, shapeEq_trans hsh i3, i4⟩

theorem applyOp_inv (b : Buffer) (op : BufOp) (hWF : WFB b) (hdvd : b.width ∣ occupancy b) :
    WFB (applyOp b op) ∧ b.width ∣ occupancy (applyOp b op) ∧ ShapeEq b (applyOp b op) := by
  cases op with
  | push src l =>
      obtain ⟨i1, i2, i3, _⟩ := pushAux_inv l b src l 0 hWF hdvd
      exact ⟨i1, i2, i3⟩
  | pop dst l =>
      obtain ⟨i1, i2, i3, _⟩ := popAux_inv l b dst l 0 hWF hdvd
      exact ⟨i1, i2, i3⟩

theorem applyOps_inv : ∀ (ops : List BufOp) (b : Buffer), WFB b → b.width ∣ occupancy b →
    WFB (applyOps b ops) ∧ b.width ∣ occupancy (applyOps b ops) ∧ ShapeEq b (applyOps b ops)
  | [], b, hWF, hdvd => ⟨hWF, hdvd, shapeEq_refl b⟩
  | op :: ops, b, hWF, hdvd => by
      obtain ⟨a1, a2, a3⟩ := applyOp_inv b op hWF hdvd
      obtain ⟨i1, i2, i3⟩ := applyOps_inv ops (applyOp b op) a1 (by rw [a3.2.1]; exact a2)
      rw [a3.2.1] at i2
      exact ⟨i1, i2, shapeEq_trans a3 i3⟩

/-! ### Claim theorems -/

/-- Buffer used by the C1 counterexample and witness: a capacity-1,
width-2, queue, overwrite buffer after pushing three 2-byte elements.
The third push wraps and leaves head = 0 (a slot boundary) and tail = 1. -/
def c1Buf : Buffer :=
  (pushToBuffer (pushToBuffer (pushToBuffer (newBuffer 1 2 false true) [5, 6] 1).1
    [7, 8] 1).1 [9, 4] 1).1

/-- C1 counterexample: in the reachable state c1Buf (head = 0, tail = 1,
elementWidth = 2), isBufferFull returns true, but the claim's
slot-granular predicate (the slot one elementWidth past head equals
tail, or tail at start and head at the last slot) is false: the slot one
past head = 0 is byte offset 2, and tail = 1.  isBufferFull compares
tail against head + ONE BYTE, not one slot. -/
theorem C1_counterexample :
    c1Buf.head = 0 ∧ c1Buf.tail = 1 ∧ c1Buf.width = 2 ∧
    isBufferFull c1Buf = true ∧ isFullSlotSpec c1Buf = false := by
  decide

/-- C1 (amended): for in-range cursors, isBufferFull returns true iff
advancing head by ONE BYTE position (with wraparound over the
capacity * elementWidth + 1 byte cells, i.e. via increment) equals tail;
equivalently tail = head + 1 or (tail at the start of storage and head
at the last byte cell). -/
theorem C1_isFull_byte_successor (b : Buffer)
    (hh : b.head ≤ (b.depth - 1) * b.width) (ht : b.tail ≤ (b.depth - 1) * b.width) :
    isBufferFull b = true ↔ increment b b.head = b.tail := by
  simp only [isBufferFull, Bool.or_eq_true, Bool.and_eq_true, beq_iff_eq,
    decide_eq_true_eq, increment]
  split_ifs <;> omega

/-- Witness for C1_isFull_byte_successor at the concrete buffer c1Buf. -/
theorem C1_isFull_byte_successor_witness :
    c1Buf.head ≤ (c1Buf.depth - 1) * c1Buf.width ∧
    c1Buf.tail ≤ (c1Buf.depth - 1) * c1Buf.width ∧
    (isBufferFull c1Buf = true ↔ increment c1Buf c1Buf.head = c1Buf.tail) :=
  ⟨by decide, by decide, C1_isFull_byte_successor c1Buf (by decide) (by decide)⟩

/-- Buffer used by the C2 counterexample and witness: capacity 3,
elementWidth 4, queue, drop. -/
def c2Buf : Buffer := newBuffer 3 4 false false

/-- C2 counterexample: with elementWidth 4, increment moves a cursor
from byte offset 0 to byte offset 1 (one byte), not to offset 4 (one
slot), and decrement moves offset 4 to 3, not to 0.  The cursor-stepping
primitives are byte-granular. -/
theorem C2_counterexample :
    c2Buf.width = 4 ∧
    increment c2Buf 0 = 1 ∧ increment c2Buf 0 ≠ 4 ∧
    decrement c2Buf 4 = 3 ∧ decrement c2Buf 4 ≠ 0 := by
  decide

/-- C2 (amended): increment and decrement move a cursor by ONE BYTE per
step, wrapping between byte offset 0 and byte offset
capacity * elementWidth; on the ring of capacity * elementWidth + 1 byte
positions they are mutually inverse. -/
theorem C2_byte_step (b : Buffer) (p : Nat) (hp : p ≤ (b.depth - 1) * b.width) :
    (p < (b.depth - 1) * b.width → increment b p = p + 1) ∧
    increment b ((b.depth - 1) * b.width) = 0 ∧
    (0 < p → decrement b p = p - 1) ∧
    decrement b 0 = (b.depth - 1) * b.width ∧
    decrement b (increment b p) = p ∧ increment b (decrement b p) = p := by
  simp only [increment, decrement]
  split_ifs <;> omega

/-- Witness for C2_byte_step at the concrete buffer c2Buf and offset 5. -/
theorem C2_byte_step_witness :
    5 ≤ (c2Buf.depth - 1) * c2Buf.width ∧
    ((5 < (c2Buf.depth - 1) * c2Buf.width → increment c2Buf 5 = 5 + 1) ∧
      increment c2Buf ((c2Buf.depth - 1) * c2Buf.width) = 0 ∧
      (0 < 5 → decrement c2Buf 5 = 5 - 1) ∧
      decrement c2Buf 0 = (c2Buf.depth - 1) * c2Buf.width ∧
      decrement c2Buf (increment c2Buf 5) = 5 ∧ increment c2Buf (decrement c2Buf 5) = 5) :=
  ⟨by decide, C2_byte_step c2Buf 5 (by decide)⟩

/-- Buffer used by the C3 evaluation: width 2, depth 3, queue, drop,
holding one byte (170) at the ring position 0, with head = 1, tail = 0,
so a pop of one 2-byte element finds the buffer empty at byteIndex 1. -/
def c3Buf : Buffer :=
  { data := [170, 0, 0, 0, 0, 0], head := 1, tail := 0, depth := 3, width := 2,
    stack := false, overwrite := false }

/-- C3 (code bug evaluation): popping one 2-byte element from c3Buf into
caller memory [55, 66] pops the byte 170 (writing it to dest offset 0),
finds the buffer empty at byteIndex 1, and then the push-back loop
pushes dest offset 1 — the byte 66, which this call never wrote — rather
than the popped byte 170 (the loop reads offset byteIndex down to 1
instead of byteIndex - 1 down to 0), and pushes it at head.  The call
returns 1 as the claim states, but the buffer ends with logical content
[66] instead of the original [170]: the state is NOT restored. -/
theorem C3_rollback_eval :
    absBuf c3Buf = [170] ∧
    popFromBuffer c3Buf [55, 66] 1 =
      ({ data := [170, 66, 0, 0, 0, 0], head := 2, tail := 1, depth := 3, width := 2,
         stack := false, overwrite := false }, [170, 66], 1) ∧
    absBuf (popFromBuffer c3Buf [55, 66] 1).1 = [66] := by
  decide

/-- C4: round-trip law.  From any well-formed empty buffer with the Drop
policy, pushing a sequence of elements (each of elementWidth bytes, at
most capacity many, one pushToBuffer call per element) reports 0 failed,
and popping the same number of elements reports 0 failed and yields, in
Queue mode, the elements in push order with each element's bytes in
original order, and in Stack mode the elements in reverse push order,
also with each element's original byte order. -/
theorem C4_round_trip (b : Buffer) (es : List (List Nat)) (hWF : WFB b)
    (hemp : isBufferEmpty b = true) (hov : b.overwrite = false)
    (hlen : es.map List.length = List.replicate es.length b.width)
    (hcap : es.length ≤ b.depth - 1) :
    (pushSeq b es).2 = 0 ∧
    (popFromBuffer (pushSeq b es).1 (List.replicate (es.length * b.width) 0) es.length).2.2 = 0 ∧
    (popFromBuffer (pushSeq b es).1 (List.replicate (es.length * b.width) 0) es.length).2.1 =
      (if b.stack then flatBytes es.reverse else flatBytes es) := by
  have hlens : ∀ e ∈ es, e.length = b.width := widths_of_map_eq es b.width hlen
  have hocc0 : occupancy b = 0 := (empty_iff_occ b hWF.htail).mp hemp
  have hoccle : occupancy b + es.length * b.width ≤ (b.depth - 1) * b.width := by
    have := Nat.mul_le_mul_right b.width hcap
    omega
  obtain ⟨s1, s2, s3, s4, s5⟩ := pushSeq_spec es b hWF hlens hoccle
  have habs0 : absBuf b = [] := by
    simp [absBuf, hocc0]
  have habs1 : absBuf (pushSeq b es).1 = flatBytes es := by
    rw [s4, habs0, List.nil_append]
  have hlen1 : ∀ e ∈ es, e.length = (pushSeq b es).1.width := by
    intro e he
    rw [s3.2.1]
    exact hlens e he
  have hdlen : (List.replicate (es.length * b.width) 0).length = (flatBytes es).length := by
    rw [List.length_replicate, length_flatBytes es b.width hlens]
  cases hst : b.stack with
  | false =>
      have hst1 : (pushSeq b es).1.stack = false := by rw [s3.2.2.1, hst]
      obtain ⟨r1, r2, r3, r4⟩ := popAux_queue es (pushSeq b es).1
        (List.replicate (es.length * b.width) 0) es.length 0 s2 hst1 hlen1 habs1
      refine ⟨s1, r1, ?_⟩
      simp only [popFromBuffer]
      rw [r3, s3.2.1, Nat.zero_mul, setSeq_self _ _ hdlen]
      simp
  | true =>
      have hst1 : (pushSeq b es).1.stack = true := by rw [s3.2.2.1, hst]
      obtain ⟨r1, r2, r3, r4⟩ := popAux_stack es (pushSeq b es).1
        (List.replicate (es.length * b.width) 0) es.length 0 s2 hst1 hlen1 habs1
      refine ⟨s1, r1, ?_⟩
      simp only [popFromBuffer]
      have hdlen' : (List.replicate (es.length * b.width) 0).length =
          (flatBytes es.reverse).length := by
        rw [List.length_replicate, length_flatBytes es.reverse b.width
          (fun e he => hlens e (List.mem_reverse.mp he))]
        simp
      rw [r3, s3.2.1, Nat.zero_mul, setSeq_self _ _ hdlen']
      simp

/-- Witness for C4_round_trip: capacity-3 width-2 Stack buffer, pushing
[1,2], [3,4], [5,6] and popping 3 elements. -/
theorem C4_round_trip_witness :
    WFB (newBuffer 3 2 true false) ∧
    isBufferEmpty (newBuffer 3 2 true false) = true ∧
    (newBuffer 3 2 true false).overwrite = false ∧
    ([[1, 2], [3, 4], [5, 6]] : List (List Nat)).map List.length =
      List.replicate ([[1, 2], [3, 4], [5, 6]] : List (List Nat)).length
        (newBuffer 3 2 true false).width ∧
    ([[1, 2], [3, 4], [5, 6]] : List (List Nat)).length ≤ (newBuffer 3 2 true false).depth - 1 ∧
    ((pushSeq (newBuffer 3 2 true false) [[1, 2], [3, 4], [5, 6]]).2 = 0 ∧
      (popFromBuffer (pushSeq (newBuffer 3 2 true false) [[1, 2], [3, 4], [5, 6]]).1
        (List.replicate (([[1, 2], [3, 4], [5, 6]] : List (List Nat)).length *
          (newBuffer 3 2 true false).width) 0)
        ([[1, 2], [3, 4], [5, 6]] : List (List Nat)).length).2.2 = 0 ∧
      (popFromBuffer (pushSeq (newBuffer 3 2 true false) [[1, 2], [3, 4], [5, 6]]).1
        (List.replicate (([[1, 2], [3, 4], [5, 6]] : List (List Nat)).length *
          (newBuffer 3 2 true false).width) 0)
        ([[1, 2], [3, 4], [5, 6]] : List (List Nat)).length).2.1 =
        (if (newBuffer 3 2 true false).stack
          then flatBytes ([[1, 2], [3, 4], [5, 6]] : List (List Nat)).reverse
          else flatBytes ([[1, 2], [3, 4], [5, 6]] : List (List Nat)))) :=
  ⟨⟨by decide, by decide, by decide, by decide, by decide⟩, by decide, by decide, by decide,
    by decide,
    C4_round_trip (newBuffer 3 2 true false) [[1, 2], [3, 4], [5, 6]]
      ⟨by decide, by decide, by decide, by decide, by decide⟩ (by decide) (by decide)
      (by decide) (by decide)⟩

/-- C5: under the Drop policy, a pushToBuffer call that delivers every
requested element returns 0 (and conversely); a call that first fails at
element index ei (ghost instrumentation) returns l - ei, the count of
elements not transferred including the partial one, and leaves the
cursors and the logical contents exactly as a clean push of only the
first ei elements would: the bytes of the partially-written element are
undone by the head rollback. -/
theorem C5_push_drop_rollback (b : Buffer) (d : List Nat) (l ei bi : Nat)
    (hWF : WFB b) (hov : b.overwrite = false) :
    ((pushToBuffer b d l).2 = 0 ↔ (pushToBufferAux b d l 0 l).ghost = none) ∧
    ((pushToBufferAux b d l 0 l).ghost = some (ei, bi) →
      (pushToBuffer b d l).2 = l - ei ∧ ei < l ∧
      (pushToBuffer b d ei).2 = 0 ∧
      (pushToBuffer b d l).1.head = (pushToBuffer b d ei).1.head ∧
      (pushToBuffer b d l).1.tail = (pushToBuffer b d ei).1.tail ∧
      absBuf (pushToBuffer b d l).1 = absBuf (pushToBuffer b d ei).1) := by
  obtain ⟨iWF, inone, isome⟩ := pushAux_drop l b d l 0 hWF hov
  constructor
  · constructor
    · intro h0
      cases hg : (pushToBufferAux b d l 0 l).ghost with
      | none => rfl
      | some p =>
          obtain ⟨ej, bj⟩ := p
          obtain ⟨t1, t2, t3, _⟩ := isome ej bj hg
          have hfail : (pushToBuffer b d l).2 = l - ej := t3
          omega
    · intro hg
      exact inone hg
  · intro hg
    obtain ⟨t1, t2, t3, t4, t5, t6, t7⟩ := isome ei bi hg
    simp only [Nat.zero_add] at t2
    simp only [Nat.sub_zero] at t4 t5 t6 t7
    have hirr := pushAux_l_irrel ei b d l ei 0
    refine ⟨t3, t2, ?_, ?_, ?_, ?_⟩
    · obtain ⟨_, inone', _⟩ := pushAux_drop ei b d ei 0 hWF hov
      apply inone'
      rw [← hirr.2]
      exact t4
    · rw [hirr.1] at t5
      exact t5
    · rw [hirr.1] at t6
      exact t6
    · rw [hirr.1] at t7
      exact t7

/-- Witness for C5_push_drop_rollback: capacity-1 width-2 Drop queue,
pushing 2 elements; the second element fails cleanly at its first byte. -/
theorem C5_push_drop_rollback_witness :
    WFB (newBuffer 1 2 false false) ∧ (newBuffer 1 2 false false).overwrite = false ∧
    (((pushToBuffer (newBuffer 1 2 false false) [1, 2, 3, 4] 2).2 = 0 ↔
        (pushToBufferAux (newBuffer 1 2 false false) [1, 2, 3, 4] 2 0 2).ghost = none) ∧
      ((pushToBufferAux (newBuffer 1 2 false false) [1, 2, 3, 4] 2 0 2).ghost = some (1, 0) →
        (pushToBuffer (newBuffer 1 2 false false) [1, 2, 3, 4] 2).2 = 2 - 1 ∧ 1 < 2 ∧
        (pushToBuffer (newBuffer 1 2 false false) [1, 2, 3, 4] 1).2 = 0 ∧
        (pushToBuffer (newBuffer 1 2 false false) [1, 2, 3, 4] 2).1.head =
          (pushToBuffer (newBuffer 1 2 false false) [1, 2, 3, 4] 1).1.head ∧
        (pushToBuffer (newBuffer 1 2 false false) [1, 2, 3, 4] 2).1.tail =
          (pushToBuffer (newBuffer 1 2 false false) [1, 2, 3, 4] 1).1.tail ∧
        absBuf (pushToBuffer (newBuffer 1 2 false false) [1, 2, 3, 4] 2).1 =
          absBuf (pushToBuffer (newBuffer 1 2 false false) [1, 2, 3, 4] 1).1)) :=
  ⟨⟨by decide, by decide, by decide, by decide, by decide⟩, by decide,
    C5_push_drop_rollback (newBuffer 1 2 false false) [1, 2, 3, 4] 2 1 0
      ⟨by decide, by decide, by decide, by decide, by decide⟩ (by decide)⟩

/-- C6: popping any number of elements from an empty buffer (head =
tail) returns a failed count equal to the requested element count and
leaves the buffer and the destination memory completely unchanged. -/
theorem C6_pop_empty (b : Buffer) (d : List Nat) (l : Nat) (hw : 0 < b.width)
    (he : b.head = b.tail) :
    popFromBuffer b d l = (b, d, l) := by
  cases l with
  | zero => simp [popFromBuffer, popFromBufferAux]
  | succ el =>
      obtain ⟨k, hk⟩ : ∃ k, b.width = k + 1 := ⟨b.width - 1, by omega⟩
      have hemp : isBufferEmpty b = true := by simp [isBufferEmpty, he]
      have hfe : popElement b d 0 b.width = (b, d, some 0) := popElement_empty b d 0 k hk hemp
      simp [popFromBuffer, popFromBufferAux, hfe]

/-- Witness for C6_pop_empty at a fresh capacity-2 width-3 queue buffer. -/
theorem C6_pop_empty_witness :
    0 < (newBuffer 2 3 false false).width ∧
    (newBuffer 2 3 false false).head = (newBuffer 2 3 false false).tail ∧
    popFromBuffer (newBuffer 2 3 false false) [9, 9, 9, 9, 9, 9] 2 =
      (newBuffer 2 3 false false, [9, 9, 9, 9, 9, 9], 2) :=
  ⟨by decide, rfl, C6_pop_empty _ _ _ (by decide) rfl⟩

/-- First push of the C7 scenario: element 10 (little-endian 4 bytes)
into a capacity-3 width-4 Queue buffer with the Overwrite policy. -/
def c7push1 : Buffer × Nat := pushToBuffer (newBuffer 3 4 false true) [10, 0, 0, 0] 1

/-- Second push of the C7 scenario: element 20. -/
def c7push2 : Buffer × Nat := pushToBuffer c7push1.1 [20, 0, 0, 0] 1

/-- Third push of the C7 scenario: element 30. -/
def c7push3 : Buffer × Nat := pushToBuffer c7push2.1 [30, 0, 0, 0] 1

/-- Fourth push of the C7 scenario: element 40, overwriting element 10. -/
def c7push4 : Buffer × Nat := pushToBuffer c7push3.1 [40, 0, 0, 0] 1

/-- C7: in a capacity-3 width-4 Queue buffer under Overwrite, pushing
10, 20, 30, 40 (as little-endian 4-byte elements) has every push report
0 failed, and popping 3 elements reports 0 failed and yields exactly
20, 30, 40 in that order: the oldest element 10 was fully evicted. -/
theorem C7_overwrite_scenario :
    c7push1.2 = 0 ∧ c7push2.2 = 0 ∧ c7push3.2 = 0 ∧ c7push4.2 = 0 ∧
    (popFromBuffer c7push4.1 (List.replicate 12 0) 3).2.2 = 0 ∧
    (popFromBuffer c7push4.1 (List.replicate 12 0) 3).2.1 =
      [20, 0, 0, 0, 30, 0, 0, 0, 40, 0, 0, 0] := by
  decide

/-- C8: for capacity > 0 and elementWidth > 0, construction allocates
(capacity + 1) * elementWidth zero bytes, puts both cursors at the start
of storage, makes isBufferEmpty true and isBufferFull false, and the
checked constructor returns either no object at all (allocation failure)
or the fully-initialized buffer, never a partial object. -/
theorem C8_construction (cap w : Nat) (st ov wa da : Bool) (hc : 0 < cap) (hw : 0 < w) :
    (newBuffer cap w st ov).data = List.replicate ((cap + 1) * w) 0 ∧
    (newBuffer cap w st ov).head = 0 ∧ (newBuffer cap w st ov).tail = 0 ∧
    isBufferEmpty (newBuffer cap w st ov) = true ∧
    isBufferFull (newBuffer cap w st ov) = false ∧
    (newBufferChecked wa da cap w st ov = none ∨
      newBufferChecked wa da cap w st ov = some (newBuffer cap w st ov)) := by
  refine ⟨rfl, rfl, rfl, rfl, ?_, ?_⟩
  · have hpos : 0 < cap * w := Nat.mul_pos hc hw
    simp [isBufferFull, newBuffer]
    omega
  · cases wa <;> cases da <;> simp [newBufferChecked]

/-- Witness for C8_construction at capacity 2, width 3, with the data
allocation succeeding and the wrapper allocation failing. -/
theorem C8_construction_witness :
    0 < 2 ∧ 0 < 3 ∧
    ((newBuffer 2 3 false true).data = List.replicate ((2 + 1) * 3) 0 ∧
      (newBuffer 2 3 false true).head = 0 ∧ (newBuffer 2 3 false true).tail = 0 ∧
      isBufferEmpty (newBuffer 2 3 false true) = true ∧
      isBufferFull (newBuffer 2 3 false true) = false ∧
      (newBufferChecked false true 2 3 false true = none ∨
        newBufferChecked false true 2 3 false true = some (newBuffer 2 3 false true))) :=
  ⟨by decide, by decide, C8_construction 2 3 false true false true (by decide) (by decide)⟩

/-- C9: starting from a freshly constructed buffer, after any sequence
of pushToBuffer and popFromBuffer calls both cursors remain at byte
offsets between 0 and capacity * elementWidth inclusive, within the
allocated capacity + 1 slots. -/
theorem C9_cursor_bounds (cap w : Nat) (st ov : Bool) (ops : List BufOp) (hw : 0 < w) :
    (applyOps (newBuffer cap w st ov) ops).head ≤ cap * w ∧
    (applyOps (newBuffer cap w st ov) ops).tail ≤ cap * w := by
  obtain ⟨iWF, _, ish⟩ := applyOps_inv ops (newBuffer cap w st ov)
    (wfb_newBuffer cap w st ov hw) (by rw [occupancy_newBuffer]; exact dvd_zero _)
  have h1 := iWF.hhead
  have h2 := iWF.htail
  rw [ish.1, ish.2.1] at h1 h2
  simp only [newBuffer, Nat.add_sub_cancel] at h1 h2
  exact ⟨h1, h2⟩

/-- Witness for C9_cursor_bounds after a push of two elements and a pop
of one in a capacity-3 width-2 queue buffer. -/
theorem C9_cursor_bounds_witness :
    0 < 2 ∧
    ((applyOps (newBuffer 3 2 false true) [BufOp.push [1, 2, 3, 4] 2, BufOp.pop [0, 0] 1]).head ≤
        3 * 2 ∧
      (applyOps (newBuffer 3 2 false true) [BufOp.push [1, 2, 3, 4] 2, BufOp.pop [0, 0] 1]).tail ≤
        3 * 2) :=
  ⟨by decide,
    C9_cursor_bounds 3 2 false true [BufOp.push [1, 2, 3, 4] 2, BufOp.pop [0, 0] 1] (by decide)⟩

/-- C10: in every state reachable from a fresh buffer through complete
pushToBuffer and popFromBuffer calls, the occupied byte count is a
multiple of elementWidth, and consequently any pushToBuffer or
popFromBuffer call from such a state can only fail at an element
boundary: the ghost byteIndex recorded at the early return is 0, so the
partial-element rollback loops never run a nonzero number of times. -/
theorem C10_occupancy_invariant (cap w : Nat) (st ov : Bool) (ops : List BufOp)
    (d1 d2 : List Nat) (l1 l2 ei1 bi1 ei2 bi2 : Nat) (hw : 0 < w) :
    w ∣ occupancy (applyOps (newBuffer cap w st ov) ops) ∧
    ((pushToBufferAux (applyOps (newBuffer cap w st ov) ops) d1 l1 0 l1).ghost =
        some (ei1, bi1) → bi1 = 0) ∧
    ((popFromBufferAux (applyOps (newBuffer cap w st ov) ops) d2 l2 0 l2).ghost =
        some (ei2, bi2) → bi2 = 0) := by
  obtain ⟨iWF, idvd, ish⟩ := applyOps_inv ops (newBuffer cap w st ov)
    (wfb_newBuffer cap w st ov hw) (by rw [occupancy_newBuffer]; exact dvd_zero _)
  have hwid : (applyOps (newBuffer cap w st ov) ops).width = w := ish.2.1
  refine ⟨idvd, ?_, ?_⟩
  · intro h
    obtain ⟨_, _, _, ig⟩ := pushAux_inv l1 (applyOps (newBuffer cap w st ov) ops) d1 l1 0 iWF
      (by rw [hwid]; exact idvd)
    exact ig ei1 bi1 h
  · intro h
    obtain ⟨_, _, _, ig⟩ := popAux_inv l2 (applyOps (newBuffer cap w st ov) ops) d2 l2 0 iWF
      (by rw [hwid]; exact idvd)
    exact ig ei2 bi2 h

/-- Witness for C10_occupancy_invariant after one push in a capacity-2
width-2 Drop queue buffer. -/
theorem C10_occupancy_invariant_witness :
    0 < 2 ∧
    (2 ∣ occupancy (applyOps (newBuffer 2 2 false false) [BufOp.push [7, 8] 1]) ∧
      ((pushToBufferAux (applyOps (newBuffer 2 2 false false) [BufOp.push [7, 8] 1])
          [1, 2, 3, 4] 2 0 2).ghost = some (0, 0) → (0 : Nat) = 0) ∧
      ((popFromBufferAux (applyOps (newBuffer 2 2 false false) [BufOp.push [7, 8] 1])
          [0, 0, 0, 0] 2 0 2).ghost = some (1, 0) → (0 : Nat) = 0)) :=
  ⟨by decide,
    C10_occupancy_invariant 2 2 false false [BufOp.push [7, 8] 1] [1, 2, 3, 4] [0, 0, 0, 0]
      2 2 0 0 1 0 (by decide)⟩
